import Mathlib

/-!
Verification of the snowpack dependency-resolution and import-rewriting core.

This file gives a shallow embedding of the relevant source functions:
  - `esinstall/src/util.ts`: `writeLockfile`, `parsePackageImportSpecifier`,
    `resolveDependencyManifest`, `findMatchingAliasEntry` and the slash helpers;
  - `packages/snowpack/src/commands/build.ts`: the per-specifier import-rewriting
    callback (lines 227-261) and the sequencing of the build command.

JavaScript strings are modelled as Lean `String` (a structure over `List Char`);
string searching and splitting are re-implemented as structural functions on the
underlying character lists so that every definition is executable.  Filesystem
and module-resolution effects are modelled by an explicit environment of
possibly-failing functions (`Except JsError`), mirroring try/catch in the code.
-/

namespace Snowpack

/-! ## Character-list string primitives (models of the JS string methods used) -/

/-- `isPrefixChars t s` decides whether the character list `t` is a prefix of `s`.
Model of `String.prototype.startsWith` (on `.data`). -/
def isPrefixChars : List Char → List Char → Bool
  | [], _ => true
  | _ :: _, [] => false
  | c :: cs, d :: ds => c == d && isPrefixChars cs ds

/-- Model of `s.startsWith(t)` for JS strings. -/
def jsStartsWith (s t : String) : Bool :=
  isPrefixChars t.data s.data

/-- Model of `s.endsWith(t)` for JS strings (used to model `\/?$`-style regexes). -/
def jsEndsWith (s t : String) : Bool :=
  isPrefixChars t.data.reverse s.data.reverse

/-- Model of `String.prototype.split` with a single-character separator:
`"".split(x) = [""]`, and separators delimit (possibly empty) fields. -/
def splitOnChar (sep : Char) : List Char → List (List Char)
  | [] => [[]]
  | c :: rest =>
    let r := splitOnChar sep rest
    if c = sep then [] :: r
    else
      match r with
      | [] => [[c]]
      | h :: t => (c :: h) :: t

/-- `imp.split('/')` on a JS string, as a list of Lean strings. -/
def jsSplitSlash (s : String) : List String :=
  (splitOnChar '/' s.data).map String.mk

/-- Model of `Array.prototype.join('/')`. -/
def joinSlash : List String → String
  | [] => ""
  | [s] => s
  | s :: rest => s ++ "/" ++ joinSlash rest

/-- A JS template literal interpolates the value `undefined` as the text
`"undefined"`; a string interpolates as itself. -/
def jsInterp : Option String → String
  | none => "undefined"
  | some s => s

/-- `rest.join('/') || null`: the empty string is falsy in JS, so an empty join
collapses to `null`. -/
def jsJoinOrNull (rest : List String) : Option String :=
  let j := joinSlash rest
  if j = "" then none else some j

/-! ## `parsePackageImportSpecifier` (esinstall/src/util.ts lines 19-27)

```
export function parsePackageImportSpecifier(imp: string): [string, string | null] {
  const impParts = imp.split('/');
  if (imp.startsWith('@')) {
    const [scope, name, ...rest] = impParts;
    return [`${scope}/${name}`, rest.join('/') || null];
  }
  const [name, ...rest] = impParts;
  return [name, rest.join('/') || null];
}
```
Array destructuring yields `undefined` for missing positions, modelled by
`Option` plus `jsInterp` inside the template literal.  `split` always returns a
nonempty array, so the unscoped `name` is modelled with `headD ""` (the
default is unreachable). -/

def parsePackageImportSpecifier (imp : String) : String × Option String :=
  let impParts := jsSplitSlash imp
  if jsStartsWith imp "@" then
    let scope := impParts.head?
    let name := impParts.get? 1
    let rest := impParts.drop 2
    (jsInterp scope ++ "/" ++ jsInterp name, jsJoinOrNull rest)
  else
    let name := impParts.headD ""
    let rest := impParts.drop 1
    (name, jsJoinOrNull rest)

/-! ## Slash helpers (esinstall/src/util.ts lines 169-187)

`addTrailingSlash` is `path.replace(/\/?$/, '/')`: the first (and only) match of
the regex is the final `/` when one exists, otherwise the empty string at the
end; so the function appends `/` exactly when the string does not end in `/`.
`removeTrailingSlash` is `path.replace(/[/\\]+$/, '')`: the leftmost-longest
match removes the maximal trailing run of `/` and `\` characters.
`removeLeadingSlash` is `path.replace(/^[/\\]+/, '')` (the same function is
exported both from `esinstall/src/util.ts` and from the snowpack `config`
module imported by `build.ts`). -/

def addTrailingSlash (p : String) : String :=
  if jsEndsWith p "/" then p else p ++ "/"

def isSlashChar (c : Char) : Bool :=
  c == '/' || c == '\\'

def removeTrailingSlash (p : String) : String :=
  String.mk (p.data.reverse.dropWhile isSlashChar).reverse

def removeLeadingSlash (p : String) : String :=
  String.mk (p.data.dropWhile isSlashChar)

/-! ## Alias matching (esinstall/src/util.ts lines 100-136)

```
export function findMatchingAliasEntry(alias, spec) {
  if (spec === '.' || spec === '..' || spec.startsWith('./') || spec.startsWith('../') ||
      spec.startsWith('/') || spec.startsWith('http://') || spec.startsWith('https://')) {
    return undefined;
  }
  for (const [from, to] of Object.entries(alias)) {
    let foundType = isPackageAliasEntry(to) ? 'package' : 'path';
    const isExactMatch = spec === removeTrailingSlash(from);
    const isDeepMatch = spec.startsWith(addTrailingSlash(from));
    if (isExactMatch || isDeepMatch) return {from, to, type: foundType};
  }
}
export function isPackageAliasEntry(val) { return !path.isAbsolute(val); }
```
The alias table is a JS object; `Object.entries` iterates string keys in
insertion order, modelled as an association list. `path.isAbsolute` is the
posix test (the host platform of interest), i.e. a leading `/`. -/

inductive AliasType where
  | package
  | path
deriving DecidableEq, Repr

structure AliasEntry where
  from_ : String
  to_ : String
  type : AliasType
deriving DecidableEq, Repr

def isPackageAliasEntry (val : String) : Bool :=
  !(jsStartsWith val "/")

/-- The guard at the top of `findMatchingAliasEntry`: relative, absolute and
URL specifiers never match. -/
def isNonBareSpecifier (spec : String) : Prop :=
  spec = "." ∨ spec = ".." ∨ jsStartsWith spec "./" = true ∨ jsStartsWith spec "../" = true ∨
    jsStartsWith spec "/" = true ∨ jsStartsWith spec "http://" = true ∨
    jsStartsWith spec "https://" = true

instance (spec : String) : Decidable (isNonBareSpecifier spec) := by
  unfold isNonBareSpecifier; infer_instance

/-- The per-entry match test of the loop body. -/
def aliasMatches (spec : String) (e : String × String) : Prop :=
  spec = removeTrailingSlash e.1 ∨ jsStartsWith spec (addTrailingSlash e.1) = true

instance (spec : String) (e : String × String) : Decidable (aliasMatches spec e) := by
  unfold aliasMatches; infer_instance

def aliasTypeOf (dest : String) : AliasType :=
  if isPackageAliasEntry dest then AliasType.package else AliasType.path

def findAliasLoop (spec : String) : List (String × String) → Option AliasEntry
  | [] => none
  | (f, t) :: rest =>
    if aliasMatches spec (f, t) then some ⟨f, t, aliasTypeOf t⟩
    else findAliasLoop spec rest

def findMatchingAliasEntry (aliasTable : List (String × String)) (spec : String) :
    Option AliasEntry :=
  if isNonBareSpecifier spec then none
  else findAliasLoop spec aliasTable

/-- Modelled from the claim's words, for comparison with the source function:
normalize both the declared key and the candidate specifier by trimming a
single trailing slash, then accept an exact match of the normalized strings or
a deep match where the specifier begins with the normalized key followed by
`/`; first matching entry wins, and relative/absolute/URL specifiers never
match. -/
def trimSingleTrailingSlash (s : String) : String :=
  if jsEndsWith s "/" then String.mk s.data.dropLast else s

def claimAliasLoop (spec : String) : List (String × String) → Option AliasEntry
  | [] => none
  | (f, t) :: rest =>
    let k := trimSingleTrailingSlash f
    if trimSingleTrailingSlash spec = k ∨ jsStartsWith spec (k ++ "/") = true then
      some ⟨f, t, aliasTypeOf t⟩
    else claimAliasLoop spec rest

def claimFindMatchingAliasEntry (aliasTable : List (String × String)) (spec : String) :
    Option AliasEntry :=
  if isNonBareSpecifier spec then none
  else claimAliasLoop spec aliasTable

/-! ## `writeLockfile` (esinstall/src/util.ts lines 6-12)

```
export async function writeLockfile(loc: string, importMap: ImportMap): Promise<void> {
  const sortedImportMap: ImportMap = {imports: {}};
  for (const key of Object.keys(importMap.imports).sort()) {
    sortedImportMap.imports[key] = importMap.imports[key];
  }
  fs.writeFileSync(loc, JSON.stringify(sortedImportMap, undefined, 2), {encoding: 'utf-8'});
}
```
The `imports` object is modelled as an association list with pairwise-distinct
keys (a JS object cannot hold a key twice), in insertion order.  `Array.sort()`
compares strings; keys are ordered here by the total order on `String`, which
agrees with the JS code-unit order on keys without supplementary-plane
characters.  `JSON.stringify(–, undefined, 2)` is reproduced literally for the
fixed `{imports: {...}}` shape, including string-escaping and two-space
indentation.  The `fs.writeFileSync` effect is modelled by returning the
written location, bytes and encoding. -/

/-- Lexicographic comparison of character lists by code point.  `Array.sort()`
with no comparator sorts strings by UTF-16 code units; on keys without
supplementary-plane characters this is the same order. -/
def leChars : List Char → List Char → Bool
  | [], _ => true
  | _ :: _, [] => false
  | a :: as, b :: bs => if a < b then true else if b < a then false else leChars as bs

def jsLeString (a b : String) : Bool :=
  leChars a.data b.data

/-- Insert a key into an already-sorted key list. -/
def insertKeySorted (k : String) : List String → List String
  | [] => [k]
  | h :: t => if jsLeString k h then k :: h :: t else h :: insertKeySorted k t

/-- `Object.keys(importMap.imports).sort()`: insertion sort by `jsLeString`
(any correct sort of pairwise-distinct keys produces the same list). -/
def sortKeys : List String → List String
  | [] => []
  | h :: t => insertKeySorted h (sortKeys t)

def jsonEscapeChar (c : Char) : String :=
  if c = '"' then "\\\""
  else if c = '\\' then "\\\\"
  else if c = '\x08' then "\\b"
  else if c = '\x09' then "\\t"
  else if c = '\x0a' then "\\n"
  else if c = '\x0c' then "\\f"
  else if c = '\x0d' then "\\r"
  else if c.toNat < 0x20 then
    "\\u00" ++ String.mk [Nat.digitChar (c.toNat / 16), Nat.digitChar (c.toNat % 16)]
  else String.mk [c]

def jsonQuote (s : String) : String :=
  "\"" ++ String.join (s.data.map jsonEscapeChar) ++ "\""

/-- One `    "key": "value"` member line of the inner `imports` object. -/
def lockfileMemberLine (e : String × String) : String :=
  "    " ++ jsonQuote e.1 ++ ": " ++ jsonQuote e.2

/-- `JSON.stringify({imports: entries}, undefined, 2)` for the given entry
list, in the given order. -/
def stringifyLockfile (entries : List (String × String)) : String :=
  let inner :=
    match entries with
    | [] => "\x7b\x7d"
    | _ =>
      "\x7b\n" ++ String.intercalate ",\n" (entries.map lockfileMemberLine) ++ "\n  \x7d"
  "\x7b\n  \"imports\": " ++ inner ++ "\n\x7d"

/-- `importMap.imports[key]` for a key known to be present; the default value
is unreachable when `k` is among the keys. -/
def lookupVal (imports : List (String × String)) (k : String) : String :=
  match imports with
  | [] => "undefined"
  | (k', v) :: rest => if k' = k then v else lookupVal rest k

/-- The entries of `sortedImportMap.imports`: keys sorted, each bound to its
value in the original map. -/
def sortedLockfileEntries (imports : List (String × String)) : List (String × String) :=
  (sortKeys (imports.map Prod.fst)).map (fun k => (k, lookupVal imports k))

structure WriteCall where
  loc : String
  contents : String
  encoding : String
deriving DecidableEq, Repr

def writeLockfile (loc : String) (imports : List (String × String)) : WriteCall :=
  ⟨loc, stringifyLockfile (sortedLockfileEntries imports), "utf-8"⟩

/-! ## `resolveDependencyManifest` (esinstall/src/util.ts lines 45-84)

Module resolution (`require.resolve` + `fs.realpathSync.native`, wrapped by
`resolvePath`), `require` of a manifest, `fs.readFileSync` and `JSON.parse`
are impure and may throw; they are modelled by an explicit environment of
functions into `Except JsError`.  A JS error is distinguished in the source
only by its `code` property.  The manifest object type is a parameter `μ`. -/

structure JsError where
  code : String
deriving DecidableEq, Repr

structure NodeEnv (μ : Type) where
  /-- `path.sep` of the host platform. -/
  sep : String
  /-- `resolvePath(dep, cwd)`: standard module resolution rooted at `cwd`,
  returning a real absolute path or throwing. -/
  resolvePath : String → String → Except JsError String
  /-- `require(path)` of an already-resolved manifest path. -/
  requireModule : String → Except JsError μ
  /-- `fs.readFileSync(path, 'utf-8')`. -/
  readFileSync : String → Except JsError String
  /-- `JSON.parse(str)`. -/
  jsonParse : String → Except JsError μ

/-- Model of `fullPath.lastIndexOf(searchPath)`: the largest index at which
`searchPath` occurs, `none` for the JS result `-1`. -/
def jsLastIndexOf (s pat : String) : Option Nat :=
  ((List.range (s.data.length + 1)).filter
    (fun i => isPrefixChars pat.data (s.data.drop i))).getLast?

/-- Model of `s.substring(0, e)` (only the two-argument form used in the
source, with start `0`). -/
def jsSubstringTo (s : String) (e : Nat) : String :=
  String.mk (s.data.take e)

/-- Model of `s.replace(pat, rep)` with a *string* pattern: JS replaces only
the first occurrence. -/
def jsReplaceFirst (s pat rep : String) : String :=
  match ((List.range (s.data.length + 1)).filter
      (fun i => isPrefixChars pat.data (s.data.drop i))).head? with
  | none => s
  | some i => String.mk (s.data.take i ++ rep.data ++ s.data.drop (i + pat.data.length))

/-- Attempt #1 of `resolveDependencyManifest`: the body of the first `try`
block — resolve `dep + "/package.json"` through standard module resolution,
then `require` it; either step may throw. -/
def manifestAttempt1 (env : NodeEnv μ) (dep cwd : String) : Except JsError (String × μ) := do
  let depManifest ← env.resolvePath (dep ++ "/package.json") cwd
  let manifest ← env.requireModule depManifest
  pure (depManifest, manifest)

/-- Attempt #2 (lines 65-84): resolve the dep itself, find the last occurrence
of `${path.sep}node_modules${path.sep}${dep.replace('/', path.sep)}` in the
resolved path, truncate just past it and append `package.json`.  `result[0]`
is assigned *before* the read, so a read/parse failure is caught with the
inferred path already recorded; the `finally` block returns `result`
unconditionally. -/
def manifestAttempt2 (env : NodeEnv μ) (dep cwd : String) : Option String × Option μ :=
  match env.resolvePath dep cwd with
  | .error _ => (none, none)
  | .ok fullPath =>
    let searchPath := env.sep ++ "node_modules" ++ env.sep ++ jsReplaceFirst dep "/" env.sep
    match jsLastIndexOf fullPath searchPath with
    | none => (none, none)
    | some indexOfSearch =>
      let manifestPath :=
        jsSubstringTo fullPath (indexOfSearch + searchPath.data.length + 1) ++ "package.json"
      match env.readFileSync manifestPath with
      | .error _ => (some manifestPath, none)
      | .ok manifestStr =>
        match env.jsonParse manifestStr with
        | .error _ => (some manifestPath, none)
        | .ok manifest => (some manifestPath, some manifest)

/-- `resolveDependencyManifest(dep, cwd)`: attempt #1, falling back to attempt
#2 exactly when the caught error's code is `ERR_PACKAGE_PATH_NOT_EXPORTED`;
the function is total — it never raises. -/
def resolveDependencyManifest (env : NodeEnv μ) (dep cwd : String) :
    Option String × Option μ :=
  match manifestAttempt1 env dep cwd with
  | .ok (depManifest, manifest) => (some depManifest, some manifest)
  | .error err =>
    if err.code ≠ "ERR_PACKAGE_PATH_NOT_EXPORTED" then (none, none)
    else manifestAttempt2 env dep cwd

/-! ## A model of Node's posix `path` module

`build.ts` runs `path.extname`, `path.posix.isAbsolute`, `path.normalize`,
`path.resolve`, `path.relative` and `path.dirname` on import URLs; on the
posix host platform `path` and `path.posix` agree.  The functions below follow
the algorithms of Node's `path.posix` implementation, working on `/`-separated
segment lists.  `path.resolve` depends on the process working directory, which
is passed explicitly as `cwd`. -/

/-- One step of Node's `normalizeString`: empty and `.` segments vanish, `..`
pops a previous real segment, cannot escape an absolute root, and accumulates
in relative paths.  The stack holds segments in reverse order. -/
def normStack (abs : Bool) (st : List String) (seg : String) : List String :=
  if seg = "" ∨ seg = "." then st
  else if seg = ".." then
    match st with
    | [] => if abs then [] else [".."]
    | top :: tl => if top = ".." then ".." :: st else tl
  else seg :: st

/-- The normalized segment list of a path already split on `/`. -/
def normSegs (abs : Bool) (segs : List String) : List String :=
  (segs.foldl (normStack abs) []).reverse

def posixIsAbsolute (p : String) : Bool :=
  jsStartsWith p "/"

/-- `path.posix.normalize`. -/
def posixNormalize (p : String) : String :=
  if p = "" then "."
  else
    let abs := posixIsAbsolute p
    let trailing := jsEndsWith p "/"
    let body := joinSlash (normSegs abs (jsSplitSlash p))
    let r := (if abs then "/" else "") ++ body
    let r := if r = "" then "." else r
    if trailing = true ∧ jsEndsWith r "/" = false then r ++ "/" else r

/-- The normalized absolute segment list of `path.resolve(cwd, p)` for a
single argument `p` (the process working directory is taken to be absolute). -/
def resolveSegs (cwd p : String) : List String :=
  normSegs true (jsSplitSlash (if posixIsAbsolute p then p else cwd ++ "/" ++ p))

/-- `path.resolve(a, b)` under working directory `cwd`: join right-to-left
until an absolute path is found, then normalize; the result is absolute with
no trailing slash. -/
def posixResolve (cwd a b : String) : String :=
  let joined :=
    if posixIsAbsolute b then b
    else if posixIsAbsolute a then a ++ "/" ++ b
    else cwd ++ "/" ++ a ++ "/" ++ b
  let body := joinSlash (normSegs true (jsSplitSlash joined))
  if body = "" then "/" else "/" ++ body

/-- Drop the common leading segments of two segment lists. -/
def dropCommon : List String → List String → List String × List String
  | a :: as, b :: bs => if a = b then dropCommon as bs else (a :: as, b :: bs)
  | as, bs => (as, bs)

/-- `path.relative(fromPath, toPath)` under working directory `cwd`: resolve
both, strip the common segment prefix, climb with `..` and descend into the
remainder. -/
def posixRelative (cwd fromPath toPath : String) : String :=
  let pair := dropCommon (resolveSegs cwd fromPath) (resolveSegs cwd toPath)
  joinSlash (pair.1.map (fun _ => "..") ++ pair.2)

/-- `path.dirname` (posix): everything before the last non-trailing `/` at
index ≥ 1; `.` when there is none and the path is relative. -/
def posixDirname (p : String) : String :=
  let l := p.data
  let hasRoot := l.head? = some '/'
  let cands := (List.range l.length).filter fun i =>
    decide (1 ≤ i) && (l.get? i == some '/') && (l.drop (i + 1)).any (fun c => c ≠ '/')
  match cands.getLast? with
  | none => if hasRoot then "/" else "."
  | some e => if hasRoot ∧ e = 1 then "//" else String.mk (l.take e)

/-- `path.extname`: the suffix of the basename from its last `.`, empty for a
dotless basename or a lone leading dot (Node's `posix.extname` algorithm). -/
def jsExtname (p : String) : String :=
  let base := (splitOnChar '/' p.data).getLastD []
  let dots := (List.range base.length).filter fun i => base.get? i == some '.'
  match dots.getLast? with
  | none => ""
  | some d =>
    if d = 0 then ""
    else if base.head? = some '.' ∧ d = 1 ∧ base.length = 2 then ""
    else String.mk (base.drop d)

/-- Truthiness of `url.parse(u).protocol`: Node's `protocolPattern` requires a
nonempty leading run of `[a-zA-Z0-9.+-]` followed by `:`. -/
def isProtocolChar (c : Char) : Bool :=
  (decide ('a' ≤ c) && decide (c ≤ 'z')) || (decide ('A' ≤ c) && decide (c ≤ 'Z')) ||
    (decide ('0' ≤ c) && decide (c ≤ '9')) || c == '.' || c == '+' || c == '-'

def hasProtocol (u : String) : Bool :=
  let pre := u.data.takeWhile isProtocolChar
  !pre.isEmpty && ((u.data.drop pre.length).head? == some ':')

/-- `.replace(/\\/g, '/')`: normalize Windows separators to forward slashes. -/
def jsReplaceBackslash (s : String) : String :=
  String.mk (s.data.map fun c => if c = '\\' then '/' else c)

/-! ## The import-rewriting callback (packages/snowpack/src/commands/build.ts
lines 227-261)

```
const resolvedCode = await transformFileImports(file, (spec) => {
  let resolvedImportUrl = resolveImportSpecifier(spec);
  if (!resolvedImportUrl || url.parse(resolvedImportUrl).protocol) {
    return spec;
  }
  const extName = path.extname(resolvedImportUrl);
  const isProxyImport = extName && extName !== '.js';
  if (isProxyImport) {
    resolvedImportUrl = resolvedImportUrl + '.proxy.js';
  }
  const isAbsoluteUrlPath = path.posix.isAbsolute(resolvedImportUrl);
  const resolvedImportPath = removeLeadingSlash(path.normalize(resolvedImportUrl));
  if (isProxyImport) {
    if (isAbsoluteUrlPath) {
      allImportProxyFiles.add(path.resolve(buildDirectoryLoc, resolvedImportPath));
    } else {
      allImportProxyFiles.add(path.resolve(path.dirname(outLoc), resolvedImportPath));
    }
  }
  if (isAbsoluteUrlPath) {
    return path
      .relative(path.dirname(outLoc), path.resolve(buildDirectoryLoc, resolvedImportPath))
      .replace(/\\/g, '/');
  }
  if (!resolvedImportUrl.startsWith('.') && !resolvedImportUrl.startsWith('/')) {
    resolvedImportUrl = './' + resolvedImportUrl;
  }
  return resolvedImportUrl;
});
```
`resolveImportSpecifier` (`createImportResolver`) returns `false | string`,
modelled by `Option String`; a returned empty string is falsy in JS and also
passes the specifier through.  The mutation of the `allImportProxyFiles` set
is returned as the second component. -/

structure RewriteCtx where
  /-- The process working directory (`path.resolve` is relative to it). -/
  cwd : String
  buildDirectoryLoc : String
  /-- The output location of the file whose imports are being rewritten. -/
  outLoc : String

/-- The location added to `allImportProxyFiles` for a resolved url `u` that
needs a proxy module. -/
def proxyDiskLoc (ctx : RewriteCtx) (u : String) : String :=
  let resolvedImportUrl := u ++ ".proxy.js"
  let resolvedImportPath := removeLeadingSlash (posixNormalize resolvedImportUrl)
  if posixIsAbsolute resolvedImportUrl = true then
    posixResolve ctx.cwd ctx.buildDirectoryLoc resolvedImportPath
  else
    posixResolve ctx.cwd (posixDirname ctx.outLoc) resolvedImportPath

/-- The rewriting callback: returns the rewritten specifier and the proxy file
location added to `allImportProxyFiles` (if any). -/
def rewriteSpecifier (ctx : RewriteCtx) (resolveImportSpecifier : String → Option String)
    (spec : String) : String × Option String :=
  match resolveImportSpecifier spec with
  | none => (spec, none)
  | some u =>
    if u = "" ∨ hasProtocol u = true then (spec, none)
    else
      let extName := jsExtname u
      let isProxyImport := extName ≠ "" ∧ extName ≠ ".js"
      let resolvedImportUrl := if isProxyImport then u ++ ".proxy.js" else u
      let isAbsoluteUrlPath := posixIsAbsolute resolvedImportUrl
      let resolvedImportPath := removeLeadingSlash (posixNormalize resolvedImportUrl)
      let proxyAdded :=
        if isProxyImport then
          some (if isAbsoluteUrlPath = true then
              posixResolve ctx.cwd ctx.buildDirectoryLoc resolvedImportPath
            else
              posixResolve ctx.cwd (posixDirname ctx.outLoc) resolvedImportPath)
        else none
      let out :=
        if isAbsoluteUrlPath = true then
          jsReplaceBackslash (posixRelative ctx.cwd (posixDirname ctx.outLoc)
            (posixResolve ctx.cwd ctx.buildDirectoryLoc resolvedImportPath))
        else if jsStartsWith resolvedImportUrl "." = false ∧
            jsStartsWith resolvedImportUrl "/" = false then
          "./" ++ resolvedImportUrl
        else resolvedImportUrl
      (out, proxyAdded)

/-! ## Build-command sequencing (packages/snowpack/src/commands/build.ts
lines 210-286)

After the source build, the command awaits `installOptimizedDependencies`
(one coordinated phase), then checks

```
if (!installResult.success || installResult.hasError) { process.exit(1); }
```

and only afterwards runs the per-file rewriting loop, the proxy-file writing
loop and the optimize step.  `await` sequences these phases; the observable
order of operations is modelled as an event list. -/

structure InstallResult where
  success : Bool
  hasError : Bool
deriving DecidableEq, Repr

inductive BuildEvent where
  /-- `installOptimizedDependencies` has run to completion. -/
  | installPhase
  | processExit (code : Nat)
  /-- One iteration of the rewriting loop (`transformFileImports` plus the
  write of the resolved code), keyed by output location. -/
  | rewriteFile (outLoc : String)
  /-- One iteration of the proxy-file loop (`wrapImportProxy` plus write). -/
  | writeProxyFile (loc : String)
  | optimizePhase
deriving DecidableEq, Repr

def commandEvents (r : InstallResult) (files proxies : List String) : List BuildEvent :=
  BuildEvent.installPhase ::
    (if r.success = false ∨ r.hasError = true then [BuildEvent.processExit 1]
     else files.map BuildEvent.rewriteFile ++ proxies.map BuildEvent.writeProxyFile ++
       [BuildEvent.optimizePhase])

/-! ## Witness environments (concrete `NodeEnv` fixtures used by witnesses) -/

/-- A resolution environment in which attempt #1 succeeds outright. -/
def envAttempt1Ok : NodeEnv String where
  sep := "/"
  resolvePath := fun dep _ => .ok ("/repo/node_modules/" ++ dep)
  requireModule := fun p => .ok ("manifest at " ++ p)
  readFileSync := fun _ => .error ⟨"ENOENT"⟩
  jsonParse := fun _ => .error ⟨"SyntaxError"⟩

/-- A resolution environment in which the package's export map blocks
`pkg/package.json` (attempt #1 fails with `ERR_PACKAGE_PATH_NOT_EXPORTED`),
the entrypoint resolves under `node_modules/pkg/`, and reading the inferred
manifest fails. -/
def envExportMapBlocked : NodeEnv String where
  sep := "/"
  resolvePath := fun dep _ =>
    if dep = "pkg/package.json" then .error ⟨"ERR_PACKAGE_PATH_NOT_EXPORTED"⟩
    else if dep = "pkg" then .ok "/app/node_modules/pkg/index.js"
    else .error ⟨"MODULE_NOT_FOUND"⟩
  requireModule := fun _ => .error ⟨"unused"⟩
  readFileSync := fun _ => .error ⟨"EACCES"⟩
  jsonParse := fun _ => .error ⟨"SyntaxError"⟩

/-- The manifest path inferred by attempt #2 from the resolved entrypoint
`fullPath` and the last occurrence (at `idx`) of the package-root marker. -/
def inferredManifestPath (sep dep fullPath : String) (idx : Nat) : String :=
  let searchPath := sep ++ "node_modules" ++ sep ++ jsReplaceFirst dep "/" sep
  jsSubstringTo fullPath (idx + searchPath.data.length + 1) ++ "package.json"

/-! ## Concrete evaluations of the embedded definitions

Sanity checks that the executable model reproduces the behaviour of the
source functions on concrete inputs (including the spec examples and the
inputs used by the claim witnesses). -/

example : parsePackageImportSpecifier "@scope/pkg/deep/path" = ("@scope/pkg", some "deep/path") := by
  decide

example : parsePackageImportSpecifier "lodash" = ("lodash", none) := by decide

example : parsePackageImportSpecifier "@scope" = ("@scope/undefined", none) := by decide

example : parsePackageImportSpecifier "lodash/fp/debounce" = ("lodash", some "fp/debounce") := by
  decide

example : removeTrailingSlash "comp//" = "comp" := by decide

example : removeTrailingSlash "comp\\" = "comp" := by decide

example : addTrailingSlash "comp" = "comp/" := by decide

example : addTrailingSlash "comp/" = "comp/" := by decide

example : removeLeadingSlash "/web/x.js" = "web/x.js" := by decide

example : findMatchingAliasEntry [("comp", "./lib/comp")] "comp" =
    some ⟨"comp", "./lib/comp", AliasType.package⟩ := by decide

example : findMatchingAliasEntry [("comp", "./lib/comp")] "comp/sub" =
    some ⟨"comp", "./lib/comp", AliasType.package⟩ := by decide

example : findMatchingAliasEntry [("comp", "./lib/comp")] "component" = none := by decide

example : findMatchingAliasEntry [("comp", "/abs/comp")] "comp" =
    some ⟨"comp", "/abs/comp", AliasType.path⟩ := by decide

example : findMatchingAliasEntry [("comp//", "./lib/comp")] "comp" =
    some ⟨"comp//", "./lib/comp", AliasType.package⟩ := by decide

example : claimFindMatchingAliasEntry [("comp//", "./lib/comp")] "comp" = none := by decide

example :
    (writeLockfile "lock" [("b", "/web_modules/b.js"), ("a", "/web_modules/a.js")]).contents =
      "\x7b\n  \"imports\": \x7b\n    \"a\": \"/web_modules/a.js\",\n    \"b\": \"/web_modules/b.js\"\n  \x7d\n\x7d" := by
  decide

example :
    writeLockfile "lock" [("b", "1"), ("a", "2")] = writeLockfile "lock" [("a", "2"), ("b", "1")] := by
  decide

example : jsLastIndexOf "/app/node_modules/pkg/index.js" "/node_modules/pkg" = some 4 := by
  decide

example : jsReplaceFirst "@scope/pkg/x" "/" "\\" = "@scope\\pkg/x" := by decide

example : posixNormalize "/web_modules/x.js" = "/web_modules/x.js" := by decide

example : posixNormalize "a/../b//c/" = "b/c/" := by decide

example : posixNormalize "/a/.." = "/" := by decide

example : posixNormalize "a/.." = "." := by decide

example : posixNormalize "../a" = "../a" := by decide

example : posixResolve "/" "/build" "web_modules/x.js" = "/build/web_modules/x.js" := by decide

example : posixResolve "/" "/build" "/abs/y.js" = "/abs/y.js" := by decide

example : posixRelative "/" "/build" "/build/web_modules/x.js" = "web_modules/x.js" := by decide

example : posixRelative "/" "/build/sub" "/build/web_modules/x.js" = "../web_modules/x.js" := by
  decide

example : posixRelative "/" "/a/b" "/a/b" = "" := by decide

example : posixDirname "/build/index.js" = "/build" := by decide

example : posixDirname "index.js" = "." := by decide

example : posixDirname "/x" = "/" := by decide

example : jsExtname "/a/b.css" = ".css" := by decide

example : jsExtname "/a/b.proxy.js" = ".js" := by decide

example : jsExtname "/a/.bashrc" = "" := by decide

example : jsExtname "/a/b" = "" := by decide

example : jsExtname "x/.." = "" := by decide

example : jsExtname "file." = "." := by decide

example : hasProtocol "https://cdn.dev/x.js" = true := by decide

example : hasProtocol "data:text/javascript,x" = true := by decide

example : hasProtocol "/web_modules/x.js" = false := by decide

example : hasProtocol "lodash" = false := by decide

example :
    rewriteSpecifier ⟨"/", "/build", "/build/sub/index.js"⟩
      (fun s => if s = "style" then some "/css/app.css" else none) "style" =
      ("../css/app.css.proxy.js", some "/build/css/app.css.proxy.js") := by decide

example :
    rewriteSpecifier ⟨"/", "/build", "/build/index.js"⟩
      (fun s => if s = "foo" then some "/web_modules/x.js" else none) "foo" =
      ("web_modules/x.js", none) := by decide

example :
    rewriteSpecifier ⟨"/", "/build", "/build/index.js"⟩
      (fun s => if s = "lodash" then some "web_modules/lodash.js" else none) "lodash" =
      ("./web_modules/lodash.js", none) := by decide

end Snowpack

namespace Snowpack

/-! # Theorems -/

/-! ## Order lemmas for the lockfile key sort -/

theorem leChars_cons {a b : Char} {as bs : List Char} :
    leChars (a :: as) (b :: bs) = true ↔ a < b ∨ (a = b ∧ leChars as bs = true) := by
  show (if a < b then true else if b < a then false else leChars as bs) = true ↔ _
  split_ifs with h1 h2
  · simp [h1]
  · simp [h1, ne_of_gt h2]
  · have hab : a = b := le_antisymm (le_of_not_lt h2) (le_of_not_lt h1)
    simp [hab]

theorem leChars_total : ∀ a b : List Char, leChars a b = true ∨ leChars b a = true
  | [], _ => Or.inl rfl
  | _ :: _, [] => Or.inr rfl
  | a :: as, b :: bs => by
    rw [leChars_cons, leChars_cons]
    rcases lt_trichotomy a b with h | h | h
    · exact Or.inl (Or.inl h)
    · rcases leChars_total as bs with ih | ih
      · exact Or.inl (Or.inr ⟨h, ih⟩)
      · exact Or.inr (Or.inr ⟨h.symm, ih⟩)
    · exact Or.inr (Or.inl h)

theorem leChars_trans : ∀ {a b c : List Char},
    leChars a b = true → leChars b c = true → leChars a c = true
  | [], _, _, _, _ => rfl
  | _ :: _, [], _, h1, _ => by simp [leChars] at h1
  | _ :: _, _ :: _, [], _, h2 => by simp [leChars] at h2
  | _ :: _, _ :: _, _ :: _, h1, h2 => by
    rw [leChars_cons] at h1 h2 ⊢
    rcases h1 with h1 | ⟨rfl, h1⟩
    · rcases h2 with h2 | ⟨rfl, h2⟩
      · exact Or.inl (lt_trans h1 h2)
      · exact Or.inl h1
    · rcases h2 with h2 | ⟨rfl, h2⟩
      · exact Or.inl h2
      · exact Or.inr ⟨rfl, leChars_trans h1 h2⟩

theorem leChars_antisymm : ∀ {a b : List Char},
    leChars a b = true → leChars b a = true → a = b
  | [], [], _, _ => rfl
  | [], _ :: _, _, h2 => by simp [leChars] at h2
  | _ :: _, [], h1, _ => by simp [leChars] at h1
  | a :: as, b :: bs, h1, h2 => by
    rw [leChars_cons] at h1 h2
    rcases h1 with h1 | ⟨rfl, h1⟩
    · rcases h2 with h2 | ⟨h2, _⟩
      · exact absurd h2 (lt_asymm h1)
      · exact absurd h2.symm (ne_of_lt h1)
    · rcases h2 with h2 | ⟨_, h2⟩
      · exact absurd h2 (lt_irrefl a)
      · rw [leChars_antisymm h1 h2]

theorem jsLeString_total (a b : String) : jsLeString a b = true ∨ jsLeString b a = true :=
  leChars_total a.data b.data

theorem jsLeString_trans {a b c : String} (h1 : jsLeString a b = true)
    (h2 : jsLeString b c = true) : jsLeString a c = true :=
  leChars_trans h1 h2

theorem jsLeString_antisymm {a b : String} (h1 : jsLeString a b = true)
    (h2 : jsLeString b a = true) : a = b := by
  cases a; cases b
  exact congrArg String.mk (leChars_antisymm h1 h2)

instance : IsAntisymm String (fun a b => jsLeString a b = true) :=
  ⟨fun _ _ h1 h2 => jsLeString_antisymm h1 h2⟩

theorem insertKeySorted_perm (k : String) (l : List String) :
    (insertKeySorted k l).Perm (k :: l) := by
  induction l with
  | nil => simp [insertKeySorted]
  | cons h t ih =>
    by_cases hle : jsLeString k h = true
    · simp [insertKeySorted, hle]
    · simp only [insertKeySorted, if_neg hle]
      exact (ih.cons h).trans (List.Perm.swap k h t)

theorem sortKeys_perm (l : List String) : (sortKeys l).Perm l := by
  induction l with
  | nil => exact List.Perm.refl _
  | cons h t ih => exact (insertKeySorted_perm h (sortKeys t)).trans (ih.cons h)

theorem sorted_insertKeySorted (k : String) (l : List String)
    (h : l.Sorted (fun a b => jsLeString a b = true)) :
    (insertKeySorted k l).Sorted (fun a b => jsLeString a b = true) := by
  induction l with
  | nil => simp [insertKeySorted]
  | cons hd t ih =>
    rw [List.sorted_cons] at h
    obtain ⟨hhd, ht⟩ := h
    by_cases hle : jsLeString k hd = true
    · simp only [insertKeySorted, if_pos hle]
      apply List.sorted_cons.mpr
      constructor
      · intro b hb
        rcases List.mem_cons.mp hb with rfl | hb
        · exact hle
        · exact jsLeString_trans hle (hhd b hb)
      · exact List.sorted_cons.mpr ⟨hhd, ht⟩
    · have hge : jsLeString hd k = true := (jsLeString_total k hd).resolve_left hle
      simp only [insertKeySorted, if_neg hle]
      apply List.sorted_cons.mpr
      constructor
      · intro b hb
        rcases List.mem_cons.mp ((insertKeySorted_perm k t).mem_iff.mp hb) with rfl | hb
        · exact hge
        · exact hhd b hb
      · exact ih ht

theorem sorted_sortKeys (l : List String) :
    (sortKeys l).Sorted (fun a b => jsLeString a b = true) := by
  induction l with
  | nil => simp [sortKeys]
  | cons h t ih => exact sorted_insertKeySorted h _ ih

theorem lookupVal_perm : ∀ {l₁ l₂ : List (String × String)}, l₁.Perm l₂ →
    (l₁.map Prod.fst).Nodup → ∀ k, lookupVal l₁ k = lookupVal l₂ k := by
  intro l₁ l₂ h
  induction h with
  | nil => exact fun _ _ => rfl
  | cons x p ih =>
    intro hn k
    obtain ⟨xk, xv⟩ := x
    simp only [lookupVal]
    by_cases hk : xk = k
    · simp [hk]
    · simp only [if_neg hk]
      simp only [List.map_cons, List.nodup_cons] at hn
      exact ih hn.2 k
  | swap x y l =>
    intro hn k
    obtain ⟨xk, xv⟩ := x
    obtain ⟨yk, yv⟩ := y
    have hne : yk ≠ xk := by
      simp only [List.map_cons, List.nodup_cons, List.mem_cons] at hn
      exact fun h => hn.1 (Or.inl h)
    simp only [lookupVal]
    by_cases hyk : yk = k
    · by_cases hxk : xk = k
      · exact absurd (hyk.trans hxk.symm) hne
      · simp [hyk, hxk]
    · simp [hyk]
  | trans p₁ p₂ ih₁ ih₂ =>
    intro hn k
    refine (ih₁ hn k).trans (ih₂ ?_ k)
    exact (p₁.map Prod.fst).nodup hn

/-! ## Claim C3 -/

/-- C3: `writeLockfile` persists the import map with keys sorted, two-space
indentation (fixed in `stringifyLockfile`) and UTF-8 encoding; the written
bytes depend only on the set of key→value pairs, not on insertion order, so
installing the same targets in either declaration order yields byte-identical
lockfile output. -/
theorem c3_writeLockfile_sorted_deterministic (loc : String)
    (m₁ m₂ : List (String × String)) (hnodup : (m₁.map Prod.fst).Nodup)
    (hperm : m₁.Perm m₂) :
    writeLockfile loc m₁ = writeLockfile loc m₂ ∧
      ((sortedLockfileEntries m₁).map Prod.fst).Sorted (fun a b => jsLeString a b = true) ∧
      (writeLockfile loc m₁).encoding = "utf-8" := by
  have hkeys : sortKeys (m₁.map Prod.fst) = sortKeys (m₂.map Prod.fst) :=
    List.eq_of_perm_of_sorted
      ((sortKeys_perm _).trans ((hperm.map Prod.fst).trans (sortKeys_perm _).symm))
      (sorted_sortKeys _) (sorted_sortKeys _)
  have hlook : ∀ k, lookupVal m₁ k = lookupVal m₂ k := lookupVal_perm hperm hnodup
  refine ⟨?_, ?_, rfl⟩
  · unfold writeLockfile sortedLockfileEntries
    rw [hkeys]
    simp only [hlook]
  · unfold sortedLockfileEntries
    rw [List.map_map]
    have hid : (Prod.fst ∘ fun k => (k, lookupVal m₁ k)) = id := rfl
    rw [hid, List.map_id]
    exact sorted_sortKeys _

theorem c3_writeLockfile_sorted_deterministic_witness :
    writeLockfile "snowpack.lock.json" [("b", "/web_modules/b.js"), ("a", "/web_modules/a.js")] =
      writeLockfile "snowpack.lock.json" [("a", "/web_modules/a.js"), ("b", "/web_modules/b.js")] :=
  (c3_writeLockfile_sorted_deterministic "snowpack.lock.json" _ _ (by decide)
    (List.Perm.swap ("a", "/web_modules/a.js") ("b", "/web_modules/b.js") [])).1

/-! ## Claims C8 and C10 -/

/-- C8: `parsePackageImportSpecifier` splits a bare-module specifier into
`(packageName, subpath|null)`: a specifier starting with `@` consumes two
slash-separated segments as the package name, any other consumes one, and an
empty remainder yields `null`; in particular
`parsePackageImportSpecifier("@scope/pkg/deep/path") = ("@scope/pkg", "deep/path")`
and `parsePackageImportSpecifier("lodash") = ("lodash", null)`. -/
theorem c8_parsePackageImportSpecifier_split :
    (∀ imp scope pkg rest, jsStartsWith imp "@" = true →
        jsSplitSlash imp = scope :: pkg :: rest →
        parsePackageImportSpecifier imp = (scope ++ "/" ++ pkg, jsJoinOrNull rest)) ∧
    (∀ imp pkg rest, jsStartsWith imp "@" = false →
        jsSplitSlash imp = pkg :: rest →
        parsePackageImportSpecifier imp = (pkg, jsJoinOrNull rest)) ∧
    (∀ rest, joinSlash rest = "" → jsJoinOrNull rest = none) ∧
    parsePackageImportSpecifier "@scope/pkg/deep/path" = ("@scope/pkg", some "deep/path") ∧
    parsePackageImportSpecifier "lodash" = ("lodash", none) := by
  refine ⟨?_, ?_, ?_, by decide, by decide⟩
  · intro imp scope pkg rest h hsplit
    simp [parsePackageImportSpecifier, h, hsplit, jsInterp]
  · intro imp pkg rest h hsplit
    simp [parsePackageImportSpecifier, h, hsplit]
  · intro rest h
    simp [jsJoinOrNull, h]

theorem c8_parsePackageImportSpecifier_split_witness :
    parsePackageImportSpecifier "@vue/runtime-core/dist/x.js" =
      ("@vue/runtime-core", jsJoinOrNull ["dist", "x.js"]) :=
  c8_parsePackageImportSpecifier_split.1 "@vue/runtime-core/dist/x.js" "@vue" "runtime-core"
    ["dist", "x.js"] (by decide) (by decide)

/-- C10: a scoped specifier with no `/` hits JS array destructuring with a
missing `name` position, and the template literal interpolates `undefined` as
the literal text `"undefined"`: the result is `("@scope/undefined", null)`,
not a rejection or the input unchanged. -/
theorem c10_scoped_single_segment_undefined :
    parsePackageImportSpecifier "@scope" = ("@scope/undefined", none) := by decide

/-! ## Claim C7 -/

/-- C7: for a specifier the resolver cannot resolve (no alias, no import-map
entry: the resolver returns no URL), and for a specifier whose resolution is
already a URL with a protocol, the rewriting callback returns the original
specifier verbatim (and adds no proxy file); being a total function, it never
fails the file. -/
theorem c7_pass_through_verbatim (ctx : RewriteCtx)
    (resolver : String → Option String) (spec : String) :
    (resolver spec = none → rewriteSpecifier ctx resolver spec = (spec, none)) ∧
    (∀ u, resolver spec = some u → hasProtocol u = true →
      rewriteSpecifier ctx resolver spec = (spec, none)) := by
  constructor
  · intro h
    simp [rewriteSpecifier, h]
  · intro u h hp
    simp [rewriteSpecifier, h, hp]

theorem c7_pass_through_verbatim_witness :
    rewriteSpecifier ⟨"/", "/build", "/build/index.js"⟩
        (fun s => if s = "https://cdn.dev/x.js" then some "https://cdn.dev/x.js" else none)
        "https://cdn.dev/x.js" = ("https://cdn.dev/x.js", none) :=
  (c7_pass_through_verbatim ⟨"/", "/build", "/build/index.js"⟩ _ _).2
    "https://cdn.dev/x.js" (by decide) (by decide)

/-! ## Claim C9 -/

/-- C9: in the build sequence the installer phase is the first event and
completes before any import rewriting; when the installer reports failure
(`!success || hasError`) the build exits (`process.exit(1)`) and no rewriting
or proxy-file writing events occur at all. -/
theorem c9_install_barrier (r : InstallResult) (files proxies : List String) :
    (commandEvents r files proxies).head? = some BuildEvent.installPhase ∧
    ((r.success = false ∨ r.hasError = true) →
      commandEvents r files proxies = [BuildEvent.installPhase, BuildEvent.processExit 1] ∧
      (∀ f, BuildEvent.rewriteFile f ∉ commandEvents r files proxies) ∧
      (∀ p, BuildEvent.writeProxyFile p ∉ commandEvents r files proxies)) ∧
    (∀ f, BuildEvent.rewriteFile f ∈ commandEvents r files proxies →
      r.success = true ∧ r.hasError = false) := by
  by_cases hc : r.success = false ∨ r.hasError = true
  · refine ⟨rfl, fun _ => ?_, fun f hf => ?_⟩
    · simp [commandEvents, hc]
    · simp [commandEvents, hc] at hf
  · refine ⟨rfl, fun h => absurd h hc, fun f _ => ?_⟩
    push_neg at hc
    obtain ⟨h1, h2⟩ := hc
    exact ⟨by simpa using h1, by simpa using h2⟩

theorem c9_install_barrier_witness :
    commandEvents ⟨false, false⟩ ["/build/index.js"] [] =
      [BuildEvent.installPhase, BuildEvent.processExit 1] :=
  ((c9_install_barrier ⟨false, false⟩ ["/build/index.js"] []).2.1 (Or.inl rfl)).1

/-! ## Claim C1 -/

/-- C1: `resolveDependencyManifest` never raises (it is a total function into
result pairs); attempt #1 resolves `<packageName>/package.json` through
standard module resolution, the attempt-#2 fallback runs exactly when attempt
#1 fails with the distinguishable `ERR_PACKAGE_PATH_NOT_EXPORTED` code, and
any other attempt-#1 failure returns `(null, null)` immediately. -/
theorem c1_manifest_resolver_control_flow {μ : Type} (env : NodeEnv μ) (dep cwd : String) :
    (∀ p m, manifestAttempt1 env dep cwd = .ok (p, m) →
      resolveDependencyManifest env dep cwd = (some p, some m)) ∧
    (∀ e, manifestAttempt1 env dep cwd = .error e →
      e.code ≠ "ERR_PACKAGE_PATH_NOT_EXPORTED" →
      resolveDependencyManifest env dep cwd = (none, none)) ∧
    (∀ e, manifestAttempt1 env dep cwd = .error e →
      e.code = "ERR_PACKAGE_PATH_NOT_EXPORTED" →
      resolveDependencyManifest env dep cwd = manifestAttempt2 env dep cwd) := by
  refine ⟨?_, ?_, ?_⟩
  · intro p m h
    simp [resolveDependencyManifest, h]
  · intro e h hcode
    simp [resolveDependencyManifest, h, hcode]
  · intro e h hcode
    simp [resolveDependencyManifest, h, hcode]

theorem c1_manifest_resolver_control_flow_witness :
    resolveDependencyManifest envAttempt1Ok "pkg" "/app" =
      (some "/repo/node_modules/pkg/package.json",
        some "manifest at /repo/node_modules/pkg/package.json") :=
  (c1_manifest_resolver_control_flow envAttempt1Ok "pkg" "/app").1 _ _ rfl

/-! ## Claim C2

The claim states that in the attempt-#2 fallback a read or parse error of the
inferred manifest yields `(null, null)`.  In the source, `result[0]` is
assigned the inferred path *before* the `readFileSync`/`JSON.parse` calls, and
the `catch {} finally { return result }` returns it; so a read/parse error
yields `(manifestPath, null)`, not `(null, null)`. -/

theorem c2_counterexample :
    resolveDependencyManifest envExportMapBlocked "pkg" "/app" =
      (some "/app/node_modules/pkg/package.json", none) ∧
    (∃ e, envExportMapBlocked.readFileSync "/app/node_modules/pkg/package.json" = .error e) ∧
    resolveDependencyManifest envExportMapBlocked "pkg" "/app" ≠
      ((none : Option String), (none : Option String)) := by
  refine ⟨by decide, ⟨⟨"EACCES"⟩, rfl⟩, by decide⟩

/-- C2 (amended): in the fallback, once the package-root marker is found in
the resolved entrypoint path, the inferred manifest path is recorded first;
a subsequent read or parse error therefore yields `(manifestPath, null)` —
the path component is the inferred path, only the manifest object is null. -/
theorem c2_amended_fallback_read_error {μ : Type} (env : NodeEnv μ) (dep cwd : String)
    (e : JsError) (fullPath : String) (idx : Nat)
    (h1 : manifestAttempt1 env dep cwd = .error e)
    (h2 : e.code = "ERR_PACKAGE_PATH_NOT_EXPORTED")
    (h3 : env.resolvePath dep cwd = .ok fullPath)
    (h4 : jsLastIndexOf fullPath
      (env.sep ++ "node_modules" ++ env.sep ++ jsReplaceFirst dep "/" env.sep) = some idx)
    (h5 : (∃ e', env.readFileSync (inferredManifestPath env.sep dep fullPath idx) = .error e') ∨
      (∃ s e', env.readFileSync (inferredManifestPath env.sep dep fullPath idx) = .ok s ∧
        env.jsonParse s = .error e')) :
    resolveDependencyManifest env dep cwd =
      (some (inferredManifestPath env.sep dep fullPath idx), none) := by
  have hmain : resolveDependencyManifest env dep cwd = manifestAttempt2 env dep cwd := by
    simp [resolveDependencyManifest, h1, h2]
  rw [hmain]
  unfold manifestAttempt2
  rw [h3]
  simp only [h4, inferredManifestPath]
  rcases h5 with ⟨e', he⟩ | ⟨s, e', hs, hp⟩
  · simp [inferredManifestPath] at he
    simp [he]
  · simp [inferredManifestPath] at hs hp
    simp [hs, hp]

theorem c2_amended_fallback_read_error_witness :
    resolveDependencyManifest envExportMapBlocked "pkg" "/app" =
      (some (inferredManifestPath "/" "pkg" "/app/node_modules/pkg/index.js" 4), none) :=
  c2_amended_fallback_read_error envExportMapBlocked "pkg" "/app" ⟨"ERR_PACKAGE_PATH_NOT_EXPORTED"⟩
    "/app/node_modules/pkg/index.js" 4 rfl rfl rfl (by decide)
    (Or.inl ⟨⟨"EACCES"⟩, rfl⟩)

/-! ## Claim C4

The claim says alias matching normalizes *both* the declared key and the
candidate specifier by trimming a *single* trailing slash.  The source
normalizes only the key — `removeTrailingSlash(from)` strips *all* trailing
slashes and backslashes for the exact match, `addTrailingSlash(from)` ensures
one trailing slash for the deep match — and never touches the specifier.  For
the key `"comp//"` and specifier `"comp"` the code matches while the claim's
normalization does not. -/

theorem c4_counterexample :
    findMatchingAliasEntry [("comp//", "./lib/comp")] "comp" =
      some ⟨"comp//", "./lib/comp", AliasType.package⟩ ∧
    claimFindMatchingAliasEntry [("comp//", "./lib/comp")] "comp" = none := by
  constructor <;> decide

/-- C4 (amended): for every alias table and bare specifier, matching strips
all trailing slashes and backslashes from the declared key for the exact
match, tests the deep match on the raw specifier against the key with a single
trailing slash ensured, never normalizes the candidate specifier, and returns
the first matching table entry in declaration order; for alias
`{from:"comp"}`, specifiers `"comp"` and `"comp/sub"` both match while
`"component"` does not, and relative, absolute, and URL specifiers never
match. -/
theorem c4_amended_alias_matching :
    (∀ tbl spec, isNonBareSpecifier spec → findMatchingAliasEntry tbl spec = none) ∧
    (∀ pre f t post spec, ¬ isNonBareSpecifier spec →
      (∀ e ∈ pre, ¬ aliasMatches spec e) → aliasMatches spec (f, t) →
      findMatchingAliasEntry (pre ++ (f, t) :: post) spec = some ⟨f, t, aliasTypeOf t⟩) ∧
    findMatchingAliasEntry [("comp", "./lib/comp")] "comp" =
      some ⟨"comp", "./lib/comp", AliasType.package⟩ ∧
    findMatchingAliasEntry [("comp", "./lib/comp")] "comp/sub" =
      some ⟨"comp", "./lib/comp", AliasType.package⟩ ∧
    findMatchingAliasEntry [("comp", "./lib/comp")] "component" = none := by
  refine ⟨?_, ?_, by decide, by decide, by decide⟩
  · intro tbl spec h
    simp [findMatchingAliasEntry, h]
  · intro pre f t post spec hg hpre hm
    simp only [findMatchingAliasEntry, if_neg hg]
    induction pre with
    | nil => simp [findAliasLoop, hm]
    | cons e pre ih =>
      obtain ⟨f', t'⟩ := e
      have hne : ¬ aliasMatches spec (f', t') := hpre _ (List.mem_cons_self _ _)
      simp only [List.cons_append, findAliasLoop, if_neg hne]
      exact ih fun e he => hpre e (List.mem_cons_of_mem _ he)

theorem c4_amended_alias_matching_witness :
    findMatchingAliasEntry [("vue", "/abs/vue"), ("comp", "./lib/comp")] "comp/sub" =
      some ⟨"comp", "./lib/comp", AliasType.package⟩ :=
  c4_amended_alias_matching.2.1 [("vue", "/abs/vue")] "comp" "./lib/comp" [] "comp/sub"
    (by decide) (by decide) (by decide)

/-! ## Claim C6

The claim (and the comment in the source, "Make sure that a relative URL
always starts with `./`") requires every emitted on-disk specifier to start
with `.` or `/`.  The absolute-path branch returns
`path.relative(path.dirname(outLoc), path.resolve(buildDirectoryLoc, ...))`
directly, skipping the `./`-prefix normalization below it; when the target
lies beneath the importing file's own output directory (e.g. a file built at
the root of the build directory importing `/web_modules/x.js`),
`path.relative` yields a bare specifier such as `web_modules/x.js`, which is
not loadable by strict browser module resolution.  The relative branch does
prefix `./`, and a deeper importing file gets a correct `../`-prefixed path,
so the early return in the absolute branch is the slip. -/

/-- C6 (exhibiting the code bug): a file built at the build-directory root
importing a specifier that resolves to the absolute URL `/web_modules/x.js`
receives the bare specifier `web_modules/x.js`, which starts with neither `.`
nor `/`; the same resolution from a nested output file yields a correct
`../web_modules/x.js`, and the relative branch adds the `./` prefix. -/
theorem c6_absolute_branch_emits_bare_specifier :
    (rewriteSpecifier ⟨"/", "/build", "/build/index.js"⟩
        (fun s => if s = "foo" then some "/web_modules/x.js" else none) "foo" =
      ("web_modules/x.js", none)) ∧
    jsStartsWith "web_modules/x.js" "." = false ∧
    jsStartsWith "web_modules/x.js" "/" = false ∧
    ((rewriteSpecifier ⟨"/", "/build", "/build/sub/index.js"⟩
        (fun s => if s = "foo" then some "/web_modules/x.js" else none) "foo").1 =
      "../web_modules/x.js") ∧
    ((rewriteSpecifier ⟨"/", "/build", "/build/index.js"⟩
        (fun s => if s = "lodash" then some "web_modules/lodash.js" else none) "lodash").1 =
      "./web_modules/lodash.js") := by
  refine ⟨by decide, by decide, by decide, by decide, by decide⟩

/-! ## Suffix-preservation lemmas for the proxy rewrite (claim C5)

The resolved URL of a proxy import gets `".proxy.js"` appended and then flows
through `path.normalize`, `removeLeadingSlash`, `path.resolve`,
`path.relative` and the backslash replacement.  Each of these preserves a
final slash-free suffix of the path, which is what makes the emitted
specifier and the recorded on-disk proxy location end in `".proxy.js"`. -/

theorem data_append (a b : String) : (a ++ b).data = a.data ++ b.data := rfl

theorem isPrefixChars_iff : ∀ {t s : List Char}, isPrefixChars t s = true ↔ ∃ r, s = t ++ r
  | [], s => by simp [isPrefixChars]
  | c :: cs, [] => by simp [isPrefixChars]
  | c :: cs, d :: ds => by
    show (c == d && isPrefixChars cs ds) = true ↔ _
    rw [Bool.and_eq_true, beq_iff_eq, isPrefixChars_iff]
    constructor
    · rintro ⟨rfl, r, rfl⟩
      exact ⟨r, rfl⟩
    · rintro ⟨r, hr⟩
      injection hr with h1 h2
      exact ⟨h1.symm, r, h2⟩

theorem jsEndsWith_iff {s t : String} : jsEndsWith s t = true ↔ ∃ p, s.data = p ++ t.data := by
  unfold jsEndsWith
  rw [isPrefixChars_iff]
  constructor
  · rintro ⟨r, hr⟩
    refine ⟨r.reverse, ?_⟩
    have h := congrArg List.reverse hr
    simpa using h
  · rintro ⟨p, hp⟩
    exact ⟨p.reverse, by simp [hp]⟩

theorem jsEndsWith_of_data {s t : String} {p : List Char} (h : s.data = p ++ t.data) :
    jsEndsWith s t = true :=
  jsEndsWith_iff.mpr ⟨p, h⟩

theorem splitOnChar_ne_nil (c : Char) : ∀ l, splitOnChar c l ≠ []
  | [] => by simp [splitOnChar]
  | d :: l => by
    simp only [splitOnChar]
    by_cases hd : d = c
    · simp [hd]
    · simp only [if_neg hd]
      cases h : splitOnChar c l with
      | nil => simp
      | cons a t => simp

theorem splitOnChar_no_sep {c : Char} : ∀ {b : List Char}, (∀ ch ∈ b, ch ≠ c) →
    splitOnChar c b = [b]
  | [], _ => rfl
  | d :: b, h => by
    have hd : d ≠ c := h d (List.mem_cons_self d b)
    have ih := splitOnChar_no_sep (fun ch hch => h ch (List.mem_cons_of_mem d hch))
    simp [splitOnChar, if_neg hd, ih]

theorem splitOnChar_cons_sep (c : Char) (l : List Char) :
    splitOnChar c (c :: l) = [] :: splitOnChar c l := by
  simp [splitOnChar]

theorem splitOnChar_cons_ne {c d : Char} (hd : ¬ d = c) (l : List Char) {s : List Char}
    {st : List (List Char)} (hl : splitOnChar c l = s :: st) :
    splitOnChar c (d :: l) = (d :: s) :: st := by
  simp [splitOnChar, hd, hl]

theorem splitOnChar_append_ends {c : Char} {b : List Char} (hb : ∀ ch ∈ b, ch ≠ c) :
    ∀ a : List Char,
      ∃ M x, splitOnChar c a = M ++ [x] ∧ splitOnChar c (a ++ b) = M ++ [x ++ b] := by
  intro a
  induction a with
  | nil => exact ⟨[], [], rfl, by simpa using splitOnChar_no_sep hb⟩
  | cons d a ih =>
    obtain ⟨M, x, h1, h2⟩ := ih
    by_cases hd : d = c
    · subst hd
      refine ⟨[] :: M, x, ?_, ?_⟩
      · rw [splitOnChar_cons_sep, h1]
        rfl
      · rw [List.cons_append, splitOnChar_cons_sep, h2]
        rfl
    · cases M with
      | nil =>
        refine ⟨[], d :: x, ?_, ?_⟩
        · rw [splitOnChar_cons_ne hd a (by simpa using h1)]
          simp
        · rw [List.cons_append, splitOnChar_cons_ne hd _ (by simpa using h2)]
          simp
      | cons m M' =>
        have h1' : splitOnChar c a = m :: (M' ++ [x]) := by simpa using h1
        have h2' : splitOnChar c (a ++ b) = m :: (M' ++ [x ++ b]) := by simpa using h2
        refine ⟨(d :: m) :: M', x, ?_, ?_⟩
        · rw [splitOnChar_cons_ne hd a h1']
          rfl
        · rw [List.cons_append, splitOnChar_cons_ne hd _ h2']
          rfl

theorem normStack_push (abs : Bool) (st : List String) {x : String}
    (h1 : x ≠ "") (h2 : x ≠ ".") (h3 : x ≠ "..") : normStack abs st x = x :: st := by
  simp [normStack, h1, h2, h3]

theorem normSegs_concat (abs : Bool) (L : List String) {x : String}
    (h1 : x ≠ "") (h2 : x ≠ ".") (h3 : x ≠ "..") :
    normSegs abs (L ++ [x]) = (L.foldl (normStack abs) []).reverse ++ [x] := by
  unfold normSegs
  rw [List.foldl_append]
  simp [normStack_push abs _ h1 h2 h3]

theorem joinSlash_concat : ∀ (M : List String) (x : String),
    ∃ p, (joinSlash (M ++ [x])).data = p ++ x.data
  | [], x => ⟨[], by simp [joinSlash]⟩
  | [s], x => ⟨s.data ++ ['/'], by simp [joinSlash, data_append]⟩
  | s :: r :: M, x => by
    obtain ⟨p, hp⟩ := joinSlash_concat (r :: M) x
    refine ⟨s.data ++ ['/'] ++ p, ?_⟩
    have hp' : (joinSlash (r :: (M ++ [x]))).data = p ++ x.data := by
      rw [← List.cons_append]
      exact hp
    show (s ++ "/" ++ joinSlash (r :: (M ++ [x]))).data = s.data ++ ['/'] ++ p ++ x.data
    rw [data_append, data_append, hp']
    simp [show ("/" : String).data = ['/'] from rfl, List.append_assoc]

theorem normSegs_ends (abs : Bool) {s : String} {w t : List Char}
    (hs : s.data = w ++ t) (ht2 : ∀ ch ∈ t, ch ≠ '/') (ht3 : 2 < t.length) :
    ∃ M X x, normSegs abs (jsSplitSlash s) = M ++ [X] ∧ X.data = x ++ t := by
  unfold jsSplitSlash
  rw [hs]
  obtain ⟨M, x, _, hsp⟩ := splitOnChar_append_ends ht2 w
  rw [hsp, List.map_append]
  have hlen : 2 < (x ++ t).length := by
    have := List.length_append x t
    omega
  have hgen : ∀ m : List Char, m.length < 3 → String.mk (x ++ t) ≠ String.mk m := by
    intro m hm h
    have hd : x ++ t = m := by injection h
    rw [hd] at hlen
    omega
  rw [List.map_singleton, normSegs_concat abs _ (hgen [] (by norm_num))
    (hgen ['.'] (by norm_num)) (hgen ['.', '.'] (by norm_num))]
  exact ⟨_, String.mk (x ++ t), x, rfl, rfl⟩

theorem normBody_ends (abs : Bool) {s : String} {w t : List Char}
    (hs : s.data = w ++ t) (ht2 : ∀ ch ∈ t, ch ≠ '/') (ht3 : 2 < t.length) :
    ∃ p, (joinSlash (normSegs abs (jsSplitSlash s))).data = p ++ t := by
  obtain ⟨M, X, x, hM, hX⟩ := normSegs_ends abs hs ht2 ht3
  rw [hM]
  obtain ⟨p, hp⟩ := joinSlash_concat M X
  refine ⟨p ++ x, ?_⟩
  rw [hp, hX, List.append_assoc]

theorem ne_empty_of_data {s : String} {w t : List Char} (hs : s.data = w ++ t)
    (ht : t ≠ []) : s ≠ "" := by
  intro h
  rw [h] at hs
  have : w ++ t = [] := hs.symm
  exact ht (List.append_eq_nil.mp this).2

theorem not_endsWith_slash {s : String} {w t : List Char} (hs : s.data = w ++ t)
    (ht : t ≠ []) (ht2 : ∀ ch ∈ t, ch ≠ '/') : jsEndsWith s "/" = false := by
  by_contra hcon
  have hc : jsEndsWith s "/" = true := by
    revert hcon
    cases jsEndsWith s "/" <;> simp
  obtain ⟨q, hq⟩ := jsEndsWith_iff.mp hc
  rw [hs] at hq
  have hrev := congrArg List.reverse hq
  simp only [List.reverse_append] at hrev
  cases hr : t.reverse with
  | nil => exact ht (by simpa using congrArg List.reverse hr)
  | cons rc rt =>
    rw [hr, List.cons_append] at hrev
    have hmem : rc ∈ t := by
      rw [← List.mem_reverse, hr]
      exact List.mem_cons_self _ _
    have hslash : rc = '/' := by
      have : ("/" : String).data.reverse = ['/'] := rfl
      rw [this] at hrev
      injection hrev
    exact ht2 rc hmem hslash

theorem posixNormalize_ends {u : String} {w t : List Char}
    (hu : u.data = w ++ t) (ht2 : ∀ ch ∈ t, ch ≠ '/') (ht3 : 2 < t.length) :
    ∃ p, (posixNormalize u).data = p ++ t := by
  have htne : t ≠ [] := by
    intro h
    rw [h] at ht3
    simp at ht3
  have hune : u ≠ "" := ne_empty_of_data hu htne
  have htrail : jsEndsWith u "/" = false := not_endsWith_slash hu htne ht2
  obtain ⟨p, hp⟩ := normBody_ends (posixIsAbsolute u) hu ht2 ht3
  unfold posixNormalize
  rw [if_neg hune]
  simp only [htrail]
  set body := joinSlash (normSegs (posixIsAbsolute u) (jsSplitSlash u)) with hbody
  have hr : ((if posixIsAbsolute u = true then "/" else "") ++ body).data =
      ((if posixIsAbsolute u = true then "/" else "") : String).data ++ (p ++ t) := by
    rw [data_append, hp]
  have hrne : (if posixIsAbsolute u = true then "/" else "") ++ body ≠ "" :=
    ne_empty_of_data (by rw [hr, ← List.append_assoc]) htne
  rw [if_neg hrne]
  have hcond : ¬ (false = true ∧
      jsEndsWith ((if posixIsAbsolute u = true then "/" else "") ++ body) "/" = false) :=
    fun h => Bool.false_ne_true h.1
  rw [if_neg hcond]
  exact ⟨_ ++ p, by rw [hr, ← List.append_assoc]⟩

theorem dropWhile_append_ends : ∀ (p : List Char) {t : List Char}, t ≠ [] →
    (∀ ch ∈ t, isSlashChar ch = false) →
    ∃ q, List.dropWhile isSlashChar (p ++ t) = q ++ t
  | [], t, htne, hslash => by
    cases t with
    | nil => exact absurd rfl htne
    | cons c t' =>
      refine ⟨[], ?_⟩
      simp [List.dropWhile_cons, hslash c (List.mem_cons_self _ _)]
  | c :: p, t, htne, hslash => by
    by_cases hc : isSlashChar c = true
    · obtain ⟨q, hq⟩ := dropWhile_append_ends p htne hslash
      refine ⟨q, ?_⟩
      rw [List.cons_append, List.dropWhile_cons, if_pos hc]
      exact hq
    · refine ⟨c :: p, ?_⟩
      rw [List.cons_append, List.dropWhile_cons, if_neg hc]

theorem removeLeadingSlash_ends {s : String} {p t : List Char}
    (hs : s.data = p ++ t) (htne : t ≠ [])
    (hslash : ∀ ch ∈ t, isSlashChar ch = false) :
    ∃ q, (removeLeadingSlash s).data = q ++ t := by
  unfold removeLeadingSlash
  rw [hs]
  obtain ⟨q, hq⟩ := dropWhile_append_ends p htne hslash
  exact ⟨q, hq⟩

theorem resolveSegs_ends {cwd p : String} {w t : List Char}
    (hp : p.data = w ++ t) (ht2 : ∀ ch ∈ t, ch ≠ '/') (ht3 : 2 < t.length) :
    ∃ M X x, resolveSegs cwd p = M ++ [X] ∧ X.data = x ++ t := by
  unfold resolveSegs
  by_cases habs : posixIsAbsolute p = true
  · rw [if_pos habs]
    exact normSegs_ends true hp ht2 ht3
  · rw [if_neg habs]
    have hdata : (cwd ++ "/" ++ p).data = ((cwd ++ "/").data ++ w) ++ t := by
      show ((cwd ++ "/") ++ p).data = _
      rw [data_append, hp, ← List.append_assoc]
    exact normSegs_ends true hdata ht2 ht3

theorem posixResolve_ends {cwd a b : String} {w t : List Char}
    (hb : b.data = w ++ t) (ht2 : ∀ ch ∈ t, ch ≠ '/') (ht3 : 2 < t.length) :
    posixIsAbsolute (posixResolve cwd a b) = true ∧
      ∃ p, (posixResolve cwd a b).data = p ++ t := by
  have htne : t ≠ [] := by
    intro h
    rw [h] at ht3
    simp at ht3
  have hj : ∃ w', (if posixIsAbsolute b = true then b
      else if posixIsAbsolute a = true then a ++ "/" ++ b
      else cwd ++ "/" ++ a ++ "/" ++ b).data = w' ++ t := by
    split_ifs
    · exact ⟨w, hb⟩
    · refine ⟨(a ++ "/").data ++ w, ?_⟩
      show ((a ++ "/") ++ b).data = _
      rw [data_append, hb, ← List.append_assoc]
    · refine ⟨(cwd ++ "/" ++ a ++ "/").data ++ w, ?_⟩
      show ((cwd ++ "/" ++ a ++ "/") ++ b).data = _
      rw [data_append, hb, ← List.append_assoc]
  obtain ⟨w', hw'⟩ := hj
  obtain ⟨p, hp⟩ := normBody_ends true hw' ht2 ht3
  unfold posixResolve
  have hbne : joinSlash (normSegs true (jsSplitSlash
      (if posixIsAbsolute b = true then b
       else if posixIsAbsolute a = true then a ++ "/" ++ b
       else cwd ++ "/" ++ a ++ "/" ++ b))) ≠ "" :=
    ne_empty_of_data hp htne
  rw [if_neg hbne]
  constructor
  · show jsStartsWith _ "/" = true
    unfold jsStartsWith
    rw [data_append, hp]
    show isPrefixChars ['/'] ('/' :: (p ++ t)) = true
    simp [isPrefixChars]
  · refine ⟨'/' :: p, ?_⟩
    rw [data_append, hp]
    rfl

theorem dropCommon_snd_suffix : ∀ (f t : List String), (dropCommon f t).2 <:+ t := by
  intro f
  induction f with
  | nil => intro t; exact List.suffix_refl t
  | cons a as ih =>
    intro t
    cases t with
    | nil => exact List.suffix_refl _
    | cons b bs =>
      by_cases hab : a = b
      · rw [dropCommon, if_pos hab]
        exact (ih bs).trans (List.suffix_cons b bs)
      · rw [dropCommon, if_neg hab]

theorem dropCommon_snd_nil : ∀ (f t : List String), (dropCommon f t).2 = [] → t <+: f := by
  intro f
  induction f with
  | nil =>
    intro t h
    have : t = [] := h
    simp [this]
  | cons a as ih =>
    intro t h
    cases t with
    | nil => exact List.nil_prefix
    | cons b bs =>
      by_cases hab : a = b
      · rw [dropCommon, if_pos hab] at h
        obtain ⟨r, hr⟩ := ih bs h
        exact ⟨r, by rw [hab, List.cons_append, hr]⟩
      · rw [dropCommon, if_neg hab] at h
        simp at h

theorem posixRelative_ends {cwd fromPath toPath : String} {w t : List Char}
    (hto : toPath.data = w ++ t) (ht2 : ∀ ch ∈ t, ch ≠ '/') (ht3 : 2 < t.length)
    (hpre : ¬ resolveSegs cwd toPath <+: resolveSegs cwd fromPath) :
    ∃ p, (posixRelative cwd fromPath toPath).data = p ++ t := by
  obtain ⟨M, X, x, hM, hX⟩ := resolveSegs_ends hto ht2 ht3
  have key : ∀ F T : List String, T = M ++ [X] → ¬ T <+: F →
      ∃ p, (joinSlash ((dropCommon F T).1.map (fun _ => "..") ++ (dropCommon F T).2)).data
        = p ++ t := by
    intro F T hT hpre'
    have hsfx : (dropCommon F T).2 <:+ T := dropCommon_snd_suffix F T
    have hne : (dropCommon F T).2 ≠ [] := fun h => hpre' (dropCommon_snd_nil F T h)
    obtain ⟨t2, y, hty⟩ := (List.eq_nil_or_concat _).resolve_left hne
    rw [List.concat_eq_append] at hty
    obtain ⟨w₀, hw₀⟩ := hsfx
    rw [hty, hT] at hw₀
    have hy : y = X := by
      have h1 := congrArg List.getLast? hw₀
      rw [← List.append_assoc, List.getLast?_concat, List.getLast?_concat] at h1
      injection h1
    rw [hty, hy]
    obtain ⟨p, hp⟩ := joinSlash_concat ((dropCommon F T).1.map (fun _ => "..") ++ t2) X
    refine ⟨p ++ x, ?_⟩
    rw [show (dropCommon F T).1.map (fun _ => "..") ++ (t2 ++ [X]) =
        ((dropCommon F T).1.map (fun _ => "..") ++ t2) ++ [X] from
      (List.append_assoc _ _ _).symm, hp, hX, List.append_assoc]
  exact key (resolveSegs cwd fromPath) (resolveSegs cwd toPath) hM hpre

theorem jsReplaceBackslash_ends {s : String} {p t : List Char}
    (hs : s.data = p ++ t) (ht : t.map (fun c => if c = '\\' then '/' else c) = t) :
    ∃ q, (jsReplaceBackslash s).data = q ++ t := by
  unfold jsReplaceBackslash
  refine ⟨p.map (fun c => if c = '\\' then '/' else c), ?_⟩
  show (s.data.map _) = _
  rw [hs, List.map_append, ht]

theorem eq_empty_of_data_nil {u : String} (h : u.data = []) : u = "" := by
  cases u with
  | mk l =>
    have hl : l = [] := h
    subst hl
    rfl

theorem jsStartsWith_append_left {u v : String} (hu : u ≠ "") :
    jsStartsWith (u ++ v) "/" = jsStartsWith u "/" := by
  cases hud : u.data with
  | nil => exact absurd (eq_empty_of_data_nil hud) hu
  | cons c l =>
    unfold jsStartsWith
    rw [data_append, hud]
    show isPrefixChars ['/'] (c :: (l ++ v.data)) = isPrefixChars ['/'] (c :: l)
    simp [isPrefixChars]

/-! ## Claim C5 -/

/-- C5: for every specifier whose resolved target has a non-default-module
extension (non-empty and other than `.js`) and is not already a URL, the
rewriting callback appends the fixed proxy suffix `.proxy.js`: the emitted
specifier ends in `.proxy.js`, and the resolved on-disk proxy location — an
absolute path also ending in `.proxy.js` — is added to the proxy file set for
later materialization.  The side condition `h6` excludes the degenerate
configuration in which the importing file's own output directory lies at or
below the proxy target path (there `path.relative` would climb with `..`
segments only). -/
theorem c5_proxy_module_rewrite (ctx : RewriteCtx) (resolver : String → Option String)
    (spec u : String)
    (h1 : resolver spec = some u) (h2 : u ≠ "") (h3 : hasProtocol u = false)
    (h4 : jsExtname u ≠ "") (h5 : jsExtname u ≠ ".js")
    (h6 : ¬ resolveSegs ctx.cwd (proxyDiskLoc ctx u) <+:
        resolveSegs ctx.cwd (posixDirname ctx.outLoc)) :
    jsEndsWith (rewriteSpecifier ctx resolver spec).1 ".proxy.js" = true ∧
    (rewriteSpecifier ctx resolver spec).2 = some (proxyDiskLoc ctx u) ∧
    posixIsAbsolute (proxyDiskLoc ctx u) = true ∧
    jsEndsWith (proxyDiskLoc ctx u) ".proxy.js" = true := by
  have px2 : ∀ ch ∈ (".proxy.js" : String).data, ch ≠ '/' := by decide
  have px3 : 2 < (".proxy.js" : String).data.length := by decide
  have pxs : ∀ ch ∈ (".proxy.js" : String).data, isSlashChar ch = false := by decide
  have pxb : (".proxy.js" : String).data.map (fun c => if c = '\\' then '/' else c) =
      (".proxy.js" : String).data := by decide
  have htne : (".proxy.js" : String).data ≠ [] := by decide
  obtain ⟨pn, hpn⟩ := posixNormalize_ends (data_append u ".proxy.js") px2 px3
  obtain ⟨pr, hpr⟩ := removeLeadingSlash_ends hpn htne pxs
  have hdiskeq : proxyDiskLoc ctx u =
      if posixIsAbsolute (u ++ ".proxy.js") = true then
        posixResolve ctx.cwd ctx.buildDirectoryLoc
          (removeLeadingSlash (posixNormalize (u ++ ".proxy.js")))
      else
        posixResolve ctx.cwd (posixDirname ctx.outLoc)
          (removeLeadingSlash (posixNormalize (u ++ ".proxy.js"))) := rfl
  have hdisk : posixIsAbsolute (proxyDiskLoc ctx u) = true ∧
      ∃ q, (proxyDiskLoc ctx u).data = q ++ (".proxy.js" : String).data := by
    rw [hdiskeq]
    by_cases habs : posixIsAbsolute (u ++ ".proxy.js") = true
    · rw [if_pos habs]
      exact @posixResolve_ends ctx.cwd ctx.buildDirectoryLoc _ _ _ hpr px2 px3
    · rw [if_neg habs]
      exact @posixResolve_ends ctx.cwd (posixDirname ctx.outLoc) _ _ _ hpr px2 px3
  have hor : ¬ (u = "" ∨ hasProtocol u = true) := by
    rintro (h | h)
    · exact h2 h
    · rw [h3] at h
      exact Bool.false_ne_true h
  have hpx : jsExtname u ≠ "" ∧ jsExtname u ≠ ".js" := ⟨h4, h5⟩
  have hred : rewriteSpecifier ctx resolver spec =
      ((if posixIsAbsolute (u ++ ".proxy.js") = true then
          jsReplaceBackslash (posixRelative ctx.cwd (posixDirname ctx.outLoc)
            (posixResolve ctx.cwd ctx.buildDirectoryLoc
              (removeLeadingSlash (posixNormalize (u ++ ".proxy.js")))))
        else if jsStartsWith (u ++ ".proxy.js") "." = false ∧
            jsStartsWith (u ++ ".proxy.js") "/" = false then
          "./" ++ (u ++ ".proxy.js")
        else u ++ ".proxy.js"),
       some (proxyDiskLoc ctx u)) := by
    simp only [rewriteSpecifier, h1]
    rw [if_neg hor]
    simp only [if_pos hpx]
    rw [hdiskeq]
  obtain ⟨hdisk1, qD, hqD⟩ := hdisk
  refine ⟨?_, ?_, hdisk1, jsEndsWith_of_data hqD⟩
  · rw [hred]
    show jsEndsWith (if posixIsAbsolute (u ++ ".proxy.js") = true then _ else _) _ = true
    by_cases habs : posixIsAbsolute (u ++ ".proxy.js") = true
    · rw [if_pos habs]
      have hpd : proxyDiskLoc ctx u = posixResolve ctx.cwd ctx.buildDirectoryLoc
          (removeLeadingSlash (posixNormalize (u ++ ".proxy.js"))) := by
        rw [hdiskeq, if_pos habs]
      obtain ⟨habs2, qT, hqT⟩ := @posixResolve_ends ctx.cwd ctx.buildDirectoryLoc
        (removeLeadingSlash (posixNormalize (u ++ ".proxy.js"))) _ _ hpr px2 px3
      obtain ⟨qR, hqR⟩ := @posixRelative_ends ctx.cwd (posixDirname ctx.outLoc)
        (posixResolve ctx.cwd ctx.buildDirectoryLoc
          (removeLeadingSlash (posixNormalize (u ++ ".proxy.js")))) _ _ hqT px2 px3
        (by rw [← hpd]; exact h6)
      obtain ⟨qB, hqB⟩ := jsReplaceBackslash_ends hqR pxb
      exact jsEndsWith_of_data hqB
    · rw [if_neg habs]
      by_cases hc : jsStartsWith (u ++ ".proxy.js") "." = false ∧
          jsStartsWith (u ++ ".proxy.js") "/" = false
      · rw [if_pos hc]
        have hdd : ("./" ++ (u ++ ".proxy.js")).data =
            (("./" : String).data ++ u.data) ++ (".proxy.js" : String).data := by
          rw [data_append, data_append, ← List.append_assoc]
        exact jsEndsWith_of_data hdd
      · rw [if_neg hc]
        exact jsEndsWith_of_data (data_append u ".proxy.js")
  · rw [hred]

theorem c5_proxy_module_rewrite_witness :
    jsEndsWith (rewriteSpecifier ⟨"/", "/build", "/build/sub/index.js"⟩
        (fun s => if s = "style" then some "/css/app.css" else none) "style").1
      ".proxy.js" = true ∧
    (rewriteSpecifier ⟨"/", "/build", "/build/sub/index.js"⟩
        (fun s => if s = "style" then some "/css/app.css" else none) "style").2 =
      some (proxyDiskLoc ⟨"/", "/build", "/build/sub/index.js"⟩ "/css/app.css") ∧
    posixIsAbsolute (proxyDiskLoc ⟨"/", "/build", "/build/sub/index.js"⟩ "/css/app.css") =
      true ∧
    jsEndsWith (proxyDiskLoc ⟨"/", "/build", "/build/sub/index.js"⟩ "/css/app.css")
      ".proxy.js" = true :=
  c5_proxy_module_rewrite ⟨"/", "/build", "/build/sub/index.js"⟩
    (fun s => if s = "style" then some "/css/app.css" else none) "style" "/css/app.css"
    (by decide) (by decide) (by decide) (by decide) (by decide) (by decide)

end Snowpack
